import Mathlib

/-!
# Verification of the day 16 packet decoder and expression evaluator

Shallow embedding of `src/aoc/day16.py`: the bit-stream reader, the
recursive-descent packet parser, the version accumulator and the
expression evaluator, together with theorems checking the specification's
claims against them.

The bit stream is a `List Bool` (the Python code streams `'0'`/`'1'`
characters).  Fallible operations return `Except ParseErr` (parsing) or
`Option` (evaluation); each Python exception site maps to a constructor
of `ParseErr` or to `none`.  Recursive parsing is driven by an explicit
fuel parameter so that every definition is structurally recursive and
kernel-computable; `ParseErr.outOfFuel` is an artifact of the embedding
that never occurs once the fuel exceeds the stream length.
-/

namespace Day16

/-- Packet types, from `class PacketType(enum.Enum)`:
SUM=0, PRODUCT=1, MINIMUM=2, MAXIMUM=3, LITERAL=4, GT=5, LT=6, EQ=7. -/
inductive PacketType where
  | sum | product | minimum | maximum | literal | gt | lt | eq
  deriving DecidableEq

/-- Decode a 3-bit type code, as `PacketType(value)` does; any value outside
0..7 raises `ValueError` in Python, embedded as `none`. -/
def PacketType.fromCode : Nat → Option PacketType
  | 0 => some .sum
  | 1 => some .product
  | 2 => some .minimum
  | 3 => some .maximum
  | 4 => some .literal
  | 5 => some .gt
  | 6 => some .lt
  | 7 => some .eq
  | _ => none

/-- Embedding of `PacketType.is_operator`: every type except LITERAL. -/
def PacketType.is_operator : PacketType → Bool
  | .literal => false
  | _ => true

/-- Embedding of the `Packet` dataclass: `version`, `type`, `value`
(present only for literals), `sub_packets`, and `length`, which records the
value of the owning parser's `bits_read` counter when the packet was built. -/
inductive Packet where
  | mk (version : Nat) (type : PacketType) (value : Option Nat)
      (sub_packets : List Packet) (length : Nat)

/-- Field accessor for `Packet.version`. -/
def Packet.version : Packet → Nat
  | .mk v _ _ _ _ => v

/-- Field accessor for `Packet.type`. -/
def Packet.type : Packet → PacketType
  | .mk _ t _ _ _ => t

/-- Field accessor for `Packet.value`. -/
def Packet.value : Packet → Option Nat
  | .mk _ _ val _ _ => val

/-- Field accessor for `Packet.sub_packets`. -/
def Packet.sub_packets : Packet → List Packet
  | .mk _ _ _ subs _ => subs

/-- Field accessor for `Packet.length`. -/
def Packet.length : Packet → Nat
  | .mk _ _ _ _ len => len

mutual
/-- Embedding of `Packet.descendants`: yield the packet itself, then every
descendant of each sub-packet, in order. -/
def Packet.descendants : Packet → List Packet
  | .mk v t val subs len => .mk v t val subs len :: descendantsList subs

/-- Concatenation of `Packet.descendants` over a list of packets (the order
in which `yield from` produces them). -/
def descendantsList : List Packet → List Packet
  | [] => []
  | p :: ps => p.descendants ++ descendantsList ps
end

/-- Embedding of `sum(p.version for p in packet.descendants())` from `main`. -/
def versionSum (p : Packet) : Nat :=
  (p.descendants.map Packet.version).sum

/-- Embedding of `sum(p.length for p in packet.descendants())`, the quantity
the bit-count framing loop accumulates per parsed child. -/
def subtreeLen (p : Packet) : Nat :=
  (p.descendants.map Packet.length).sum

/-- Error outcomes of parsing.  `unexpectedEndOfStream` is the
`RuntimeError("Unexpected end of string")` from `_read`; `framingMismatch` is
the `RuntimeError` raised when bit-count framing over-reads; `valueError`
covers Python `ValueError` sites (`int("", 2)`, `PacketType(v)` for `v > 7`);
`outOfFuel` is the embedding's fuel-exhaustion artifact. -/
inductive ParseErr where
  | unexpectedEndOfStream
  | framingMismatch
  | valueError
  | outOfFuel
  deriving DecidableEq

/-- Big-endian value of a bit string, as `int(s, 2)` computes it on a
nonempty string of binary digits. -/
def binToNat (bs : List Bool) : Nat :=
  bs.foldl (fun a b => 2 * a + b.toNat) 0

/-- Embedding of `_Parser._read`: take the next `n` bits, failing with
`unexpectedEndOfStream` when fewer than `n` remain; on success the offset
advances by `n` (the returned remainder is `n` bits shorter). -/
def readBits (n : Nat) (s : List Bool) : Except ParseErr (List Bool × List Bool) :=
  if s.length < n then .error .unexpectedEndOfStream else .ok (s.take n, s.drop n)

/-- Embedding of `int(chars, 2)`: a `ValueError` on the empty string,
otherwise the big-endian value. -/
def intOfBits (bs : List Bool) : Except ParseErr Nat :=
  if bs.isEmpty then .error .valueError else .ok (binToNat bs)

/-- Embedding of `_Parser._read_int`: read `n` bits and convert with
`int(-, 2)`. -/
def readInt (n : Nat) (s : List Bool) : Except ParseErr (Nat × List Bool) :=
  match readBits n s with
  | .error e => .error e
  | .ok (bs, s') =>
    match intOfBits bs with
    | .error e => .error e
    | .ok v => .ok (v, s')

/-- Embedding of the loop in `_Parser._parse_literal_body`: read a 1-bit
continuation flag and a 4-bit nibble per group, stopping after the first
group whose flag is 0.  Returns the concatenated nibble bits, the number of
bits consumed, and the remaining stream. -/
def parseLiteralGroups (fuel : Nat) (s : List Bool) :
    Except ParseErr (List Bool × Nat × List Bool) :=
  match readInt 1 s with
  | .error e => .error e
  | .ok (more, s1) =>
    match readBits 4 s1 with
    | .error e => .error e
    | .ok (nib, s2) =>
      if more ≠ 0 then
        match fuel with
        | 0 => .error .outOfFuel
        | fuel' + 1 =>
          match parseLiteralGroups fuel' s2 with
          | .error e => .error e
          | .ok (rest, c, s3) => .ok (nib ++ rest, 5 + c, s3)
      else
        .ok (nib, 5, s2)

mutual
/-- Embedding of `_Parser.parse`: read the 3-bit version and 3-bit type,
then either a literal body or the sub-packets of an operator.  The built
packet's `length` is the parser's own `bits_read`: 6 header bits plus the
bits this parser itself read for the body — the bits of sub-packets are
read by fresh child parsers and are not counted. -/
def parseP : Nat → List Bool → Except ParseErr (Packet × List Bool)
  | 0, _ => .error .outOfFuel
  | fuel + 1, s =>
    match readInt 3 s with
    | .error e => .error e
    | .ok (version, s1) =>
      match readInt 3 s1 with
      | .error e => .error e
      | .ok (tcode, s2) =>
        match PacketType.fromCode tcode with
        | none => .error .valueError
        | some t =>
          if t = .literal then
            match parseLiteralGroups fuel s2 with
            | .error e => .error e
            | .ok (nib, c, s3) =>
              match intOfBits nib with
              | .error e => .error e
              | .ok v => .ok (.mk version t (some v) [] (6 + c), s3)
          else
            match parseSubPackets fuel s2 with
            | .error e => .error e
            | .ok (own, subs, s3) => .ok (.mk version t none subs (6 + own), s3)

/-- Embedding of `_Parser._parse_sub_packets`: read the 1-bit length-type
flag; flag 0 (BIT_COUNT) reads a 15-bit total and enters the accumulation
loop, flag 1 (SUB_COUNT) reads an 11-bit count and parses that many
children.  Returns the number of bits read directly by this parser
(1+15 or 1+11), the children, and the remaining stream. -/
def parseSubPackets : Nat → List Bool → Except ParseErr (Nat × List Packet × List Bool)
  | 0, _ => .error .outOfFuel
  | fuel + 1, s =>
    match readInt 1 s with
    | .error e => .error e
    | .ok (flag, s1) =>
      if flag = 0 then
        match readInt 15 s1 with
        | .error e => .error e
        | .ok (bc, s2) =>
          match parseLoop fuel bc 0 s2 with
          | .error e => .error e
          | .ok (ps, s3) => .ok (16, ps, s3)
      else
        match readInt 11 s1 with
        | .error e => .error e
        | .ok (n, s2) =>
          match parseCount fuel n s2 with
          | .error e => .error e
          | .ok (ps, s3) => .ok (12, ps, s3)

/-- Embedding of the BIT_COUNT branch's `while bits_read < bit_count` loop:
while the accumulated total `acc` is below `bc`, parse a child with a fresh
parser and add `subtreeLen` of it (the code's
`sum(p.length for p in packet.descendants())`); on exit, succeed when the
total is exactly `bc` and raise the framing `RuntimeError` otherwise. -/
def parseLoop : Nat → Nat → Nat → List Bool → Except ParseErr (List Packet × List Bool)
  | fuel, bc, acc, s =>
    if acc < bc then
      match fuel with
      | 0 => .error .outOfFuel
      | fuel' + 1 =>
        match parseP fuel' s with
        | .error e => .error e
        | .ok (p, s') =>
          match parseLoop fuel' bc (acc + subtreeLen p) s' with
          | .error e => .error e
          | .ok (ps, s'') => .ok (p :: ps, s'')
    else if acc = bc then .ok ([], s)
    else .error .framingMismatch

/-- Embedding of the SUB_COUNT branch: parse exactly `n` children, each with
a fresh parser. -/
def parseCount : Nat → Nat → List Bool → Except ParseErr (List Packet × List Bool)
  | _, 0, s => .ok ([], s)
  | fuel, m + 1, s =>
    match fuel with
    | 0 => .error .outOfFuel
    | fuel' + 1 =>
      match parseP fuel' s with
      | .error e => .error e
      | .ok (p, s') =>
        match parseCount fuel' m s' with
        | .error e => .error e
        | .ok (ps, s'') => .ok (p :: ps, s'')
end

/-- Top-level parse, `_Parser(binstr).parse()`: fuel `s.length + 1` is ample
since every recursive step consumes input. -/
def parse (s : List Bool) : Except ParseErr (Packet × List Bool) :=
  parseP (s.length + 1) s

/-- Big-endian `w`-bit representation of `n % 2^w`, matching Python's
`f"{v:04b}"` formatting for `w = 4`, `v < 16`. -/
def natToBits : Nat → Nat → List Bool
  | 0, _ => []
  | w + 1, n => natToBits w (n / 2) ++ [decide (n % 2 = 1)]

/-- Value of one hex digit as `int(char, 16)` computes it, `none` embedding
the `ValueError` on a non-hex character. -/
def hexDigitVal (c : Char) : Option Nat :=
  if '0' ≤ c ∧ c ≤ '9' then some (c.toNat - '0'.toNat)
  else if 'a' ≤ c ∧ c ≤ 'f' then some (c.toNat - 'a'.toNat + 10)
  else if 'A' ≤ c ∧ c ≤ 'F' then some (c.toNat - 'A'.toNat + 10)
  else none

/-- Embedding of `_hextobin`: each hex digit expands to its 4 bits,
most significant first. -/
def hexToBin (cs : List Char) : Option (List Bool) :=
  match cs with
  | [] => some []
  | c :: rest =>
    match hexDigitVal c with
    | none => none
    | some v =>
      match hexToBin rest with
      | none => none
      | some bs => some (natToBits 4 v ++ bs)

/-- Embedding of `PacketType.to_operator` applied to a fully evaluated
operand list: `sum`, `functools.reduce(operator.mul, values, 1)`, `min`,
`max` (a `ValueError` on an empty sequence for the latter two), and the
two-argument comparisons `operator.gt/lt/eq`, which raise `TypeError`
unless called with exactly two arguments.  `none` embeds every raise. -/
def applyOp : PacketType → List Nat → Option Nat
  | .sum, vs => some (vs.foldl (· + ·) 0)
  | .product, vs => some (vs.foldl (· * ·) 1)
  | .minimum, [] => none
  | .minimum, v :: vs => some (vs.foldl min v)
  | .maximum, [] => none
  | .maximum, v :: vs => some (vs.foldl max v)
  | .literal, _ => none
  | .gt, [a, b] => some (if a > b then 1 else 0)
  | .gt, _ => none
  | .lt, [a, b] => some (if a < b then 1 else 0)
  | .lt, _ => none
  | .eq, [a, b] => some (if a = b then 1 else 0)
  | .eq, _ => none

mutual
/-- Evaluation of a packet, the composition of `Expression.from_packet` /
`_get_operand_from_packet` and `Expression.eval`: a literal contributes its
`value`; an operator packet evaluates all its children (the starred call
`self.operator(*...)` / the consuming builtins force the whole operand
generator) and applies its operator function. -/
def evalPacket : Packet → Option Nat
  | .mk _ t val subs _ =>
    match t with
    | .literal => val
    | t =>
      match evalList subs with
      | none => none
      | some vs => applyOp t vs

/-- Evaluate a list of packets left to right, propagating the first failure
(the order in which `_eval_operands` yields them). -/
def evalList : List Packet → Option (List Nat)
  | [] => some []
  | p :: ps =>
    match evalPacket p with
    | none => none
    | some v =>
      match evalList ps with
      | none => none
      | some vs => some (v :: vs)
end

/-- Big-endian base-16 digits of `n` (at least one digit), computed with
structural fuel; `natNibbles` below instantiates the fuel. -/
def natNibblesF : Nat → Nat → List Nat
  | 0, n => [n]
  | f + 1, n => if n < 16 then [n] else natNibblesF f (n / 16) ++ [n % 16]

/-- Big-endian base-16 digits of `n`; fuel `n` suffices since the argument
quarters at least at every step. -/
def natNibbles (n : Nat) : List Nat :=
  natNibblesF n n

/-- Modelled from the spec: the repository contains no encoder, so the
continuation-nibble encoding of a literal body is taken from the spec's
words — each 4-bit group is preceded by a continuation bit, 1 for every
group but the last, 0 for the last. -/
def encodeGroups : List Nat → List Bool
  | [] => []
  | [d] => false :: natToBits 4 d
  | d :: d' :: ds => true :: (natToBits 4 d ++ encodeGroups (d' :: ds))

/-- Modelled from the spec: encode a non-negative integer as its big-endian
nibble sequence wrapped in continuation groups. -/
def encodeLiteral (v : Nat) : List Bool :=
  encodeGroups (natNibbles v)

/-- Concatenation of the 4-bit representations of a digit list, the bit
string a chain of literal groups carries. -/
def nibblesToBits : List Nat → List Bool
  | [] => []
  | d :: ds => natToBits 4 d ++ nibblesToBits ds

/-- The 3-bit type code of a packet type (the enum member's value). -/
def PacketType.code : PacketType → Nat
  | .sum => 0
  | .product => 1
  | .minimum => 2
  | .maximum => 3
  | .literal => 4
  | .gt => 5
  | .lt => 6
  | .eq => 7

/-- A 29-bit stream: an LT operator packet (version 1, sub-count mode,
one sub-packet) containing a literal child (version 6, value 10). -/
def c1Bits : List Bool :=
  [false, false, true, true, true, false, true,
   false, false, false, false, false, false, false, false, false, false, true,
   true, true, false, true, false, false, false, true, false, true, false]

/-- The packet `parse c1Bits` produces: the parent's `length` field is 18
(its own 3+3+1+11 bits) while the whole parse consumed 29 bits. -/
def c1Packet : Packet :=
  .mk 1 .lt none [.mk 6 .literal (some 10) [] 11] 18

/-- A literal packet with the given value, used to instantiate witnesses. -/
def sampleLit (n : Nat) : Packet := .mk 0 .literal (some n) [] 11

/-! ## Basic lemmas about the data model -/

theorem fromCode_code (t : PacketType) : PacketType.fromCode t.code = some t := by
  cases t <;> rfl

theorem code_lt_8 (t : PacketType) : t.code < 8 := by
  cases t <;> simp [PacketType.code]

theorem descendantsList_map_sum (f : Packet → Nat) (l : List Packet) :
    ((descendantsList l).map f).sum = (l.map fun p => (p.descendants.map f).sum).sum := by
  induction l with
  | nil => simp [descendantsList]
  | cons p ps ih => simp [descendantsList, ih]

theorem subtreeLen_mk (v : Nat) (t : PacketType) (val : Option Nat)
    (subs : List Packet) (len : Nat) :
    subtreeLen (.mk v t val subs len) = len + (subs.map subtreeLen).sum := by
  unfold subtreeLen
  rw [Packet.descendants]
  simp [Packet.length, descendantsList_map_sum, subtreeLen]

theorem versionSum_mk (v : Nat) (t : PacketType) (val : Option Nat)
    (subs : List Packet) (len : Nat) :
    versionSum (.mk v t val subs len) = v + (subs.map versionSum).sum := by
  unfold versionSum
  rw [Packet.descendants]
  simp [Packet.version, descendantsList_map_sum, versionSum]

/-! ## Lemmas about bit reads -/

theorem binToNat_go (bs : List Bool) :
    ∀ a : Nat, bs.foldl (fun a b => 2 * a + b.toNat) a = a * 2 ^ bs.length + binToNat bs := by
  induction bs with
  | nil => intro a; simp [binToNat]
  | cons b bs ih =>
    intro a
    have h2 : binToNat (b :: bs) = b.toNat * 2 ^ bs.length + binToNat bs := by
      show List.foldl _ _ (b :: bs) = _
      rw [List.foldl_cons, ih]
      simp
    show List.foldl _ _ (b :: bs) = _
    rw [List.foldl_cons, ih, h2]
    simp [List.length_cons]
    ring

theorem binToNat_append (xs ys : List Bool) :
    binToNat (xs ++ ys) = binToNat xs * 2 ^ ys.length + binToNat ys := by
  unfold binToNat
  rw [List.foldl_append]
  exact binToNat_go ys _

theorem natToBits_length (w n : Nat) : (natToBits w n).length = w := by
  induction w generalizing n with
  | zero => rfl
  | succ w ih => simp [natToBits, ih]

theorem binToNat_natToBits (w n : Nat) : binToNat (natToBits w n) = n % 2 ^ w := by
  induction w generalizing n with
  | zero => simp [natToBits, binToNat, Nat.mod_one]
  | succ w ih =>
    rw [natToBits, binToNat_append, ih]
    have hsing : binToNat [decide (n % 2 = 1)] = n % 2 := by
      rcases Nat.mod_two_eq_zero_or_one n with h | h <;> simp [binToNat, h]
    have hmul : n % (2 * 2 ^ w) = n % 2 + 2 * (n / 2 % 2 ^ w) := Nat.mod_mul
    have hpow : (2 : Nat) ^ (w + 1) = 2 * 2 ^ w := by ring
    rw [hsing, hpow, hmul]
    simp [List.length_cons]
    ring

theorem readBits_err (n : Nat) (s : List Bool) (h : s.length < n) :
    readBits n s = .error .unexpectedEndOfStream := by
  simp [readBits, h]

theorem readBits_ok (n : Nat) (s : List Bool) (h : n ≤ s.length) :
    readBits n s = .ok (s.take n, s.drop n) := by
  simp [readBits, Nat.not_lt.mpr h]

theorem readBits_ok_inv {n : Nat} {s bs s' : List Bool}
    (h : readBits n s = .ok (bs, s')) :
    n ≤ s.length ∧ bs = s.take n ∧ s' = s.drop n := by
  by_cases hl : s.length < n
  · rw [readBits_err n s hl] at h; cases h
  · rw [readBits_ok n s (Nat.not_lt.mp hl)] at h
    cases h
    exact ⟨Nat.not_lt.mp hl, rfl, rfl⟩

theorem readBits_exact {n : Nat} (xs ys : List Bool) (h : xs.length = n) :
    readBits n (xs ++ ys) = .ok (xs, ys) := by
  subst h
  rw [readBits_ok _ _ (by simp)]
  congr 1
  rw [List.take_left, List.drop_left]

theorem readInt_ok_inv {n : Nat} {s : List Bool} {v : Nat} {s' : List Bool}
    (h : readInt n s = .ok (v, s')) :
    n ≤ s.length ∧ v = binToNat (s.take n) ∧ s' = s.drop n ∧ n ≠ 0 := by
  unfold readInt at h
  cases hr : readBits n s with
  | error e => rw [hr] at h; cases h
  | ok out =>
    obtain ⟨bs, s₁⟩ := out
    rw [hr] at h
    obtain ⟨hn, hbs, hs₁⟩ := readBits_ok_inv hr
    unfold intOfBits at h
    by_cases he : bs.isEmpty
    · simp [he] at h
    · simp [he] at h
      have hne : n ≠ 0 := by
        intro h0
        subst h0
        simp [List.take_zero] at hbs
        subst hbs
        simp at he
      exact ⟨hn, by rw [← h.1, hbs], by rw [← h.2, hs₁], hne⟩

theorem readInt_err {n : Nat} {s : List Bool} (h : s.length < n) :
    readInt n s = .error .unexpectedEndOfStream := by
  unfold readInt
  rw [readBits_err n s h]

theorem readInt_exact {n : Nat} (xs ys : List Bool) (h : xs.length = n) (hn : n ≠ 0) :
    readInt n (xs ++ ys) = .ok (binToNat xs, ys) := by
  unfold readInt
  rw [readBits_exact xs ys h]
  have : xs.isEmpty = false := by
    cases xs
    · simp at h; omega
    · rfl
  simp [intOfBits, this]

/-! ## Bits-consumed invariant of the parser -/

theorem parseLiteralGroups_consumed : ∀ (fuel : Nat) (s nib : List Bool) (c : Nat) (s' : List Bool),
    parseLiteralGroups fuel s = .ok (nib, c, s') → c + s'.length = s.length := by
  intro fuel
  induction fuel with
  | zero =>
    intro s nib c s' h
    unfold parseLiteralGroups at h
    split at h
    · cases h
    next more s1 hr1 =>
      split at h
      · cases h
      next nib4 s2 hr2 =>
        split at h
        · cases h
        · obtain ⟨h1, h2, h3, h4⟩ := readInt_ok_inv hr1
          obtain ⟨h5, h6, h7⟩ := readBits_ok_inv hr2
          cases h
          subst h3 h7
          simp only [List.length_drop] at h5 ⊢
          omega
  | succ f ih =>
    intro s nib c s' h
    unfold parseLiteralGroups at h
    split at h
    · cases h
    next more s1 hr1 =>
      split at h
      · cases h
      next nib4 s2 hr2 =>
        obtain ⟨h1, h2, h3, h4⟩ := readInt_ok_inv hr1
        obtain ⟨h5, h6, h7⟩ := readBits_ok_inv hr2
        split at h
        · dsimp only at h
          cases hrec : parseLiteralGroups f s2 with
          | error e => rw [hrec] at h; cases h
          | ok out =>
            obtain ⟨rest, cr, s3⟩ := out
            rw [hrec] at h
            simp at h
            obtain ⟨hnib, hc, hs⟩ := h
            have hlen := ih _ _ _ _ hrec
            subst h3 h7 hc hs
            simp only [List.length_drop] at hlen h5 ⊢
            omega
        · cases h
          subst h3 h7
          simp only [List.length_drop] at h5 ⊢
          omega

theorem parse_consumed : ∀ fuel : Nat,
    (∀ s p s', parseP fuel s = .ok (p, s') → subtreeLen p + s'.length = s.length) ∧
    (∀ s own ps s', parseSubPackets fuel s = .ok (own, ps, s') →
      own + (ps.map subtreeLen).sum + s'.length = s.length) ∧
    (∀ bc acc s ps s', parseLoop fuel bc acc s = .ok (ps, s') →
      (ps.map subtreeLen).sum + s'.length = s.length ∧
      acc + (ps.map subtreeLen).sum = bc) ∧
    (∀ n s ps s', parseCount fuel n s = .ok (ps, s') →
      (ps.map subtreeLen).sum + s'.length = s.length) := by
  intro fuel
  induction fuel with
  | zero =>
    refine ⟨?_, ?_, ?_, ?_⟩
    · intro s p s' h
      simp [parseP] at h
    · intro s own ps s' h
      simp [parseSubPackets] at h
    · intro bc acc s ps s' h
      rw [parseLoop] at h
      split at h
      · try dsimp only at h
        cases h
      · split at h
        · cases h
          simpa using ‹acc = bc›
        · cases h
    · intro n s ps s' h
      match n with
      | 0 =>
        rw [parseCount] at h
        cases h
        simp
      | m + 1 =>
        rw [parseCount] at h
        try dsimp only at h
        cases h
  | succ f ih =>
    obtain ⟨ihP, ihS, ihL, ihC⟩ := ih
    refine ⟨?_, ?_, ?_, ?_⟩
    · -- parseP
      intro s p s' h
      simp only [parseP] at h
      split at h
      · cases h
      next version s1 hr1 =>
        split at h
        · cases h
        next tcode s2 hr2 =>
          split at h
          · cases h
          next t hft =>
            obtain ⟨ha1, ha2, ha3, ha4⟩ := readInt_ok_inv hr1
            obtain ⟨hb1, hb2, hb3, hb4⟩ := readInt_ok_inv hr2
            split at h
            · split at h
              · cases h
              next nib c s3 hlit =>
                split at h
                · cases h
                next v hv =>
                  cases h
                  have hc := parseLiteralGroups_consumed f s2 _ _ _ hlit
                  rw [subtreeLen_mk]
                  subst ha3 hb3
                  simp only [List.length_drop, List.map_nil, List.sum_nil] at hc hb1 ⊢
                  omega
            · split at h
              · cases h
              next own subs s3 hsub =>
                cases h
                have hc := ihS s2 _ _ _ hsub
                rw [subtreeLen_mk]
                subst ha3 hb3
                simp only [List.length_drop] at hc hb1 ⊢
                omega
    · -- parseSubPackets
      intro s own ps s' h
      simp only [parseSubPackets] at h
      split at h
      · cases h
      next flag s1 hr1 =>
        obtain ⟨ha1, ha2, ha3, ha4⟩ := readInt_ok_inv hr1
        split at h
        · split at h
          · cases h
          next bc s2 hr2 =>
            obtain ⟨hb1, hb2, hb3, hb4⟩ := readInt_ok_inv hr2
            split at h
            · cases h
            next ps0 s3 hl =>
              cases h
              have hc := (ihL bc 0 s2 _ _ hl).1
              subst ha3 hb3
              simp only [List.length_drop] at hc hb1 ⊢
              omega
        · split at h
          · cases h
          next n s2 hr2 =>
            obtain ⟨hb1, hb2, hb3, hb4⟩ := readInt_ok_inv hr2
            split at h
            · cases h
            next ps0 s3 hcnt =>
              cases h
              have hc := ihC n s2 _ _ hcnt
              subst ha3 hb3
              simp only [List.length_drop] at hc hb1 ⊢
              omega
    · -- parseLoop
      intro bc acc s ps s' h
      rw [parseLoop] at h
      split at h
      · try dsimp only at h
        split at h
        · cases h
        next p s1 hp =>
          split at h
          · cases h
          next ps1 s2 hl =>
            cases h
            have h1 := ihP s _ _ hp
            have h2 := ihL bc (acc + subtreeLen p) s1 _ _ hl
            constructor
            · simp only [List.map_cons, List.sum_cons]
              omega
            · simp only [List.map_cons, List.sum_cons]
              omega
      · split at h
        · cases h
          constructor
          · simp
          · simpa using ‹acc = bc›
        · cases h
    · -- parseCount
      intro n s ps s' h
      match n with
      | 0 =>
        rw [parseCount] at h
        cases h
        simp
      | m + 1 =>
        rw [parseCount] at h
        try dsimp only at h
        split at h
        · cases h
        next p s1 hp =>
          split at h
          · cases h
          next ps1 s2 hc =>
            cases h
            have h1 := ihP s _ _ hp
            have h2 := ihC m s1 _ _ hc
            simp only [List.map_cons, List.sum_cons]
            omega

/-! ## Nibble encoding lemmas -/

theorem natNibblesF_spec : ∀ f n : Nat, n ≤ f →
    natNibblesF f n ≠ [] ∧ (∀ d ∈ natNibblesF f n, d < 16) ∧
    (natNibblesF f n).foldl (fun a d => 16 * a + d) 0 = n := by
  intro f
  induction f with
  | zero =>
    intro n hn
    interval_cases n
    refine ⟨by simp [natNibblesF], ?_, by simp [natNibblesF]⟩
    intro d hd
    simp [natNibblesF] at hd
    omega
  | succ f ih =>
    intro n hn
    by_cases h16 : n < 16
    · refine ⟨by simp [natNibblesF, h16], ?_, by simp [natNibblesF, h16]⟩
      intro d hd
      simp [natNibblesF, h16] at hd
      omega
    · have hdiv : n / 16 ≤ f := by
        have := Nat.div_lt_self (by omega : 0 < n) (by omega : 1 < 16)
        omega
      obtain ⟨ih1, ih2, ih3⟩ := ih (n / 16) hdiv
      have heq : natNibblesF (f + 1) n = natNibblesF f (n / 16) ++ [n % 16] := by
        simp [natNibblesF, h16]
      refine ⟨by simp [heq], ?_, ?_⟩
      · intro d hd
        rw [heq] at hd
        rcases List.mem_append.mp hd with h | h
        · exact ih2 d h
        · simp at h
          omega
      · rw [heq, List.foldl_append, ih3]
        simp
        omega

theorem natNibbles_spec (n : Nat) :
    natNibbles n ≠ [] ∧ (∀ d ∈ natNibbles n, d < 16) ∧
    (natNibbles n).foldl (fun a d => 16 * a + d) 0 = n :=
  natNibblesF_spec n n (Nat.le_refl n)

theorem nibblesToBits_foldl (ds : List Nat) :
    ∀ a : Nat, (∀ d ∈ ds, d < 16) →
    (nibblesToBits ds).foldl (fun a b => 2 * a + b.toNat) a =
      ds.foldl (fun a d => 16 * a + d) a := by
  induction ds with
  | nil => intro a _; rfl
  | cons d ds ih =>
    intro a hlt
    show (natToBits 4 d ++ nibblesToBits ds).foldl _ _ = _
    rw [List.foldl_append]
    have h1 : (natToBits 4 d).foldl (fun a b => 2 * a + b.toNat) a = 16 * a + d := by
      rw [binToNat_go, natToBits_length, binToNat_natToBits]
      have : d % 2 ^ 4 = d := Nat.mod_eq_of_lt (by have := hlt d (by simp); omega)
      rw [this]
      ring
    rw [h1, ih (16 * a + d) fun x hx => hlt x (by simp [hx])]
    rfl

theorem binToNat_nibblesToBits (ds : List Nat) (h : ∀ d ∈ ds, d < 16) :
    binToNat (nibblesToBits ds) = ds.foldl (fun a d => 16 * a + d) 0 :=
  nibblesToBits_foldl ds 0 h

theorem nibblesToBits_ne_nil {ds : List Nat} (h : ds ≠ []) : nibblesToBits ds ≠ [] := by
  cases ds with
  | nil => exact absurd rfl h
  | cons d ds =>
    show natToBits 4 d ++ nibblesToBits ds ≠ []
    intro hc
    have := congrArg List.length hc
    simp [natToBits_length] at this

/-- Round trip of the group chain: parsing the encoding of a digit list
consumes exactly the encoding and returns the concatenated nibble bits. -/
theorem parseLiteralGroups_encodeGroups :
    ∀ (ds : List Nat) (fuel : Nat) (rest : List Bool), ds ≠ [] → (∀ d ∈ ds, d < 16) →
    ds.length ≤ fuel + 1 →
    parseLiteralGroups fuel (encodeGroups ds ++ rest) =
      .ok (nibblesToBits ds, 5 * ds.length, rest) := by
  intro ds
  induction ds with
  | nil => intro fuel rest h; exact absurd rfl h
  | cons d tail ih =>
    intro fuel rest _ hlt hlen
    cases tail with
    | nil =>
      unfold parseLiteralGroups
      have hstream : encodeGroups [d] ++ rest = [false] ++ (natToBits 4 d ++ rest) := by
        simp [encodeGroups]
      rw [hstream, @readInt_exact 1 [false] (natToBits 4 d ++ rest) rfl (by omega)]
      have hb : binToNat [false] = 0 := rfl
      rw [hb]
      dsimp only
      rw [readBits_exact (natToBits 4 d) rest (natToBits_length 4 d)]
      simp [nibblesToBits]
    | cons d' tail' =>
      unfold parseLiteralGroups
      have hstream : encodeGroups (d :: d' :: tail') ++ rest =
          [true] ++ (natToBits 4 d ++ (encodeGroups (d' :: tail') ++ rest)) := by
        simp [encodeGroups]
      rw [hstream, @readInt_exact 1 [true] (natToBits 4 d ++ (encodeGroups (d' :: tail') ++ rest)) rfl (by omega)]
      have hb : binToNat [true] = 1 := rfl
      rw [hb]
      dsimp only
      rw [readBits_exact (natToBits 4 d) _ (natToBits_length 4 d)]
      dsimp only
      simp only [ne_eq, OfNat.ofNat_ne_zero, not_false_eq_true, reduceIte, one_ne_zero]
      obtain ⟨fuel', rfl⟩ : ∃ f', fuel = f' + 1 := by
        cases fuel with
        | zero => simp at hlen
        | succ f' => exact ⟨f', rfl⟩
      have hrec := ih fuel' rest (by simp) (fun x hx => hlt x (by simp [hx]))
        (by simp at hlen ⊢; omega)
      dsimp only
      rw [hrec]
      show _ = Except.ok (nibblesToBits (d :: d' :: tail'), _, rest)
      simp [nibblesToBits]
      ring

/-! ## Evaluation lemmas -/

theorem foldl_min_mem (l : List Nat) : ∀ a : Nat, l.foldl min a ∈ a :: l := by
  induction l with
  | nil => intro a; simp
  | cons b l ih =>
    intro a
    rw [List.foldl_cons]
    have h := ih (min a b)
    rcases List.mem_cons.mp h with h1 | h1
    · rw [h1]
      rcases Nat.le_total a b with hab | hab
      · rw [Nat.min_eq_left hab]; exact List.mem_cons_self a _
      · rw [Nat.min_eq_right hab]
        exact List.mem_cons_of_mem a (List.mem_cons_self b _)
    · exact List.mem_cons_of_mem a (List.mem_cons_of_mem b h1)

theorem foldl_min_le (l : List Nat) : ∀ a y : Nat, y ∈ a :: l → l.foldl min a ≤ y := by
  induction l with
  | nil => intro a y hy; simp at hy; simp [hy]
  | cons b l ih =>
    intro a y hy
    rw [List.foldl_cons]
    have hhead : l.foldl min (min a b) ≤ min a b := ih (min a b) (min a b) (by simp)
    rcases List.mem_cons.mp hy with h1 | h1
    · rw [h1]
      exact le_trans hhead (Nat.min_le_left a b)
    · rcases List.mem_cons.mp h1 with h2 | h2
      · rw [h2]
        exact le_trans hhead (Nat.min_le_right a b)
      · exact ih (min a b) y (by simp [h2])

theorem foldl_max_mem (l : List Nat) : ∀ a : Nat, l.foldl max a ∈ a :: l := by
  induction l with
  | nil => intro a; simp
  | cons b l ih =>
    intro a
    rw [List.foldl_cons]
    have h := ih (max a b)
    rcases List.mem_cons.mp h with h1 | h1
    · rw [h1]
      rcases Nat.le_total a b with hab | hab
      · rw [Nat.max_eq_right hab]
        exact List.mem_cons_of_mem a (List.mem_cons_self b _)
      · rw [Nat.max_eq_left hab]; exact List.mem_cons_self a _
    · exact List.mem_cons_of_mem a (List.mem_cons_of_mem b h1)

theorem foldl_le_max (l : List Nat) : ∀ a y : Nat, y ∈ a :: l → y ≤ l.foldl max a := by
  induction l with
  | nil => intro a y hy; simp at hy; simp [hy]
  | cons b l ih =>
    intro a y hy
    rw [List.foldl_cons]
    have hhead : max a b ≤ l.foldl max (max a b) := ih (max a b) (max a b) (by simp)
    rcases List.mem_cons.mp hy with h1 | h1
    · rw [h1]
      exact le_trans (Nat.le_max_left a b) hhead
    · rcases List.mem_cons.mp h1 with h2 | h2
      · rw [h2]
        exact le_trans (Nat.le_max_right a b) hhead
      · exact ih (max a b) y (by simp [h2])

theorem evalList_length : ∀ {subs : List Packet} {vs : List Nat},
    evalList subs = some vs → vs.length = subs.length := by
  intro subs
  induction subs with
  | nil => intro vs h; rw [evalList] at h; cases h; rfl
  | cons p ps ih =>
    intro vs h
    rw [evalList] at h
    split at h
    · cases h
    next v hv =>
      split at h
      · cases h
      next vs0 hvs =>
        cases h
        simp [ih hvs]

theorem evalList_cons_ok {p : Packet} {ps : List Packet} {v : Nat} {vs : List Nat}
    (hp : evalPacket p = some v) (hps : evalList ps = some vs) :
    evalList (p :: ps) = some (v :: vs) := by
  rw [evalList, hp, hps]

/-! ## Short streams abort the parse -/

theorem readInt_ok (n : Nat) (s : List Bool) (h : n ≤ s.length) (hn : n ≠ 0) :
    readInt n s = .ok (binToNat (s.take n), s.drop n) := by
  unfold readInt
  rw [readBits_ok n s h]
  have hne : (s.take n).isEmpty = false := by
    cases htake : s.take n with
    | nil =>
      have hlen := congrArg List.length htake
      rw [List.length_take] at hlen
      simp only [List.length_nil] at hlen
      omega
    | cons x xs => rfl
  simp [intOfBits, hne]

theorem parse_short (s : List Bool) (h : s.length < 6) :
    parse s = .error .unexpectedEndOfStream := by
  unfold parse
  rw [parseP]
  rcases Nat.lt_or_ge s.length 3 with h3 | h3
  · rw [readInt_err h3]
  · rw [readInt_ok 3 s h3 (by omega)]
    dsimp only
    have hlt : (s.drop 3).length < 3 := by simp; omega
    rw [readInt_err hlt]

/-! ## Folds against library sum and product -/

theorem foldl_add_init (l : List Nat) : ∀ a : Nat, l.foldl (· + ·) a = a + l.sum := by
  induction l with
  | nil => intro a; simp
  | cons b l ih => intro a; rw [List.foldl_cons, ih]; simp [List.sum_cons]; omega

theorem foldl_mul_init (l : List Nat) : ∀ a : Nat, l.foldl (· * ·) a = a * l.prod := by
  induction l with
  | nil => intro a; simp
  | cons b l ih => intro a; rw [List.foldl_cons, ih]; simp [List.prod_cons]; ring

theorem applyOp_sum (vs : List Nat) : applyOp .sum vs = some vs.sum := by
  rw [applyOp, foldl_add_init]; simp

theorem applyOp_product (vs : List Nat) : applyOp .product vs = some vs.prod := by
  rw [applyOp, foldl_mul_init]; simp

theorem applyOp_cmp_none (vs : List Nat) (h : vs.length ≠ 2) :
    applyOp .gt vs = none ∧ applyOp .lt vs = none ∧ applyOp .eq vs = none := by
  match vs with
  | [] => exact ⟨rfl, rfl, rfl⟩
  | [a] => exact ⟨rfl, rfl, rfl⟩
  | [a, b] => simp at h
  | a :: b :: c :: t => exact ⟨rfl, rfl, rfl⟩

theorem ne_literal_of_is_operator {t : PacketType} (h : t.is_operator = true) :
    ¬ t = .literal := by
  cases t <;> simp_all [PacketType.is_operator]

theorem readInt_all (n : Nat) (xs : List Bool) (h : xs.length = n) (hn : n ≠ 0) :
    readInt n xs = .ok (binToNat xs, []) := by
  have := @readInt_exact n xs [] h hn
  rwa [List.append_nil] at this

theorem parseP_nil (f : Nat) : parseP (f + 1) [] = .error .unexpectedEndOfStream := by
  rw [parseP, readInt_err (by simp : ([] : List Bool).length < 3)]

/-! ## Claim theorems -/

/-- C1 counterexample: parsing `c1Bits` consumes all 29 bits (cursor delta
29) yet the resulting packet's `length` field is 18, so the claim that the
stored bit length equals the total bits consumed including descendants fails
on this operator packet. -/
theorem claim_c1_cex :
    parse c1Bits = .ok (c1Packet, []) ∧
    Packet.length c1Packet ≠ c1Bits.length - ([] : List Bool).length :=
  ⟨rfl, by decide⟩

/-- C1 amended: for every successful parse, the cursor offset delta equals
the sum of the `length` fields over the packet and all its descendants
(`subtreeLen`); each packet's own `length` field counts only the bits its
own parser read, so the total decomposes as own `length` plus the subtree
sums of the children. -/
theorem claim_c1 (fuel : Nat) (s : List Bool) (p : Packet) (s' : List Bool)
    (h : parseP fuel s = .ok (p, s')) :
    subtreeLen p + s'.length = s.length ∧
    ∀ (v : Nat) (t : PacketType) (val : Option Nat) (subs : List Packet) (len : Nat),
      subtreeLen (.mk v t val subs len) =
        Packet.length (.mk v t val subs len) + (subs.map subtreeLen).sum :=
  ⟨(parse_consumed fuel).1 s p s' h,
   fun v t val subs len => subtreeLen_mk v t val subs len⟩

/-- C1 amended, witness at the concrete 29-bit stream. -/
theorem claim_c1_w :
    parseP 30 c1Bits = .ok (c1Packet, []) ∧
    (subtreeLen c1Packet + ([] : List Bool).length = c1Bits.length ∧
     ∀ (v : Nat) (t : PacketType) (val : Option Nat) (subs : List Packet) (len : Nat),
      subtreeLen (.mk v t val subs len) =
        Packet.length (.mk v t val subs len) + (subs.map subtreeLen).sum) :=
  ⟨rfl, claim_c1 30 c1Bits c1Packet [] rfl⟩

/-- C2: the bit-count accumulation loop returns immediately with no further
children once the accumulated total equals the declared total, raises the
framing mismatch error whenever the accumulated total strictly exceeds it,
and any successful run parses children whose subtree lengths sum exactly to
the declared total (which also equals the bits consumed). -/
theorem claim_c2 (fuel bc acc : Nat) (s : List Bool) :
    (acc = bc → parseLoop fuel bc acc s = .ok ([], s)) ∧
    (bc < acc → parseLoop fuel bc acc s = .error .framingMismatch) ∧
    (∀ (ps : List Packet) (s' : List Bool), parseLoop fuel bc acc s = .ok (ps, s') →
      acc + (ps.map subtreeLen).sum = bc ∧
      (ps.map subtreeLen).sum + s'.length = s.length) := by
  refine ⟨?_, ?_, ?_⟩
  · intro hacc
    rw [parseLoop.eq_def]
    simp [hacc]
  · intro hlt
    rw [parseLoop.eq_def]
    have h1 : ¬ acc < bc := by omega
    have h2 : ¬ acc = bc := by omega
    simp [h1, h2]
  · intro ps s' h
    have hc := (parse_consumed fuel).2.2.1 bc acc s ps s' h
    exact ⟨hc.2, hc.1⟩

/-- C2 witness: an exactly-met total returns at once; an overshoot raises
the framing mismatch. -/
theorem claim_c2_w :
    parseLoop 3 7 7 [true] = .ok ([], [true]) ∧
    parseLoop 3 5 9 [] = .error .framingMismatch :=
  ⟨(claim_c2 3 7 7 [true]).1 rfl, (claim_c2 3 5 9 []).2.1 (by decide)⟩

/-- C8: the version sum over a packet's descendants is its own version plus
the version sums of its children, and is exactly the root's version when
there are no children. -/
theorem claim_c8 (ver len : Nat) (t : PacketType) (val : Option Nat) (subs : List Packet) :
    versionSum (.mk ver t val subs len) = ver + (subs.map versionSum).sum ∧
    versionSum (.mk ver t val [] len) = ver := by
  refine ⟨versionSum_mk ver t val subs len, ?_⟩
  rw [versionSum_mk]
  simp

/-- C10: Minimum and Maximum packets with no children fail to evaluate
(Python `min`/`max` raise on an empty sequence), Sum and Product packets
with no children evaluate to 0 and 1, and the min/max operator functions
succeed on any operand sequence with at least one element. -/
theorem claim_c10 (ver len : Nat) (val : Option Nat) :
    evalPacket (.mk ver .minimum val [] len) = none ∧
    evalPacket (.mk ver .maximum val [] len) = none ∧
    evalPacket (.mk ver .sum val [] len) = some 0 ∧
    evalPacket (.mk ver .product val [] len) = some 1 ∧
    ∀ (a : Nat) (tail : List Nat),
      applyOp .minimum (a :: tail) = some (tail.foldl min a) ∧
      applyOp .maximum (a :: tail) = some (tail.foldl max a) :=
  ⟨rfl, rfl, rfl, rfl, fun a tail => ⟨rfl, rfl⟩⟩



/-- C3: evaluation computes the literal's value, the sum and product of the
children's evaluations (with identities 0 and 1), the minimum and maximum of
the children's evaluations, and for the three comparisons with exactly two
children the 1/0 truth value of comparing the first child's evaluation with
the second's. -/
theorem claim_c3 (ver len : Nat) (val : Option Nat) (x : Nat)
    (subs : List Packet) (vs : List Nat) (h : evalList subs = some vs) :
    evalPacket (.mk ver .literal (some x) subs len) = some x ∧
    evalPacket (.mk ver .sum val subs len) = some vs.sum ∧
    evalPacket (.mk ver .product val subs len) = some vs.prod ∧
    (∀ (a : Nat) (tail : List Nat), vs = a :: tail →
      evalPacket (.mk ver .minimum val subs len) = some (tail.foldl min a) ∧
      tail.foldl min a ∈ vs ∧ ∀ y ∈ vs, tail.foldl min a ≤ y) ∧
    (∀ (a : Nat) (tail : List Nat), vs = a :: tail →
      evalPacket (.mk ver .maximum val subs len) = some (tail.foldl max a) ∧
      tail.foldl max a ∈ vs ∧ ∀ y ∈ vs, y ≤ tail.foldl max a) ∧
    (∀ a b : Nat, vs = [a, b] →
      subs.length = 2 ∧
      evalPacket (.mk ver .gt val subs len) = some (if a > b then 1 else 0) ∧
      evalPacket (.mk ver .lt val subs len) = some (if a < b then 1 else 0) ∧
      evalPacket (.mk ver .eq val subs len) = some (if a = b then 1 else 0)) := by
  refine ⟨rfl, ?_, ?_, ?_, ?_, ?_⟩
  · simp only [evalPacket]
    rw [h]
    exact applyOp_sum vs
  · simp only [evalPacket]
    rw [h]
    exact applyOp_product vs
  · intro a tail hvt
    subst hvt
    refine ⟨?_, foldl_min_mem tail a, fun y hy => foldl_min_le tail a y hy⟩
    simp only [evalPacket]
    rw [h]
    rfl
  · intro a tail hvt
    subst hvt
    refine ⟨?_, foldl_max_mem tail a, fun y hy => foldl_le_max tail a y hy⟩
    simp only [evalPacket]
    rw [h]
    rfl
  · intro a b hvt
    subst hvt
    refine ⟨by rw [← evalList_length h]; rfl, ?_, ?_, ?_⟩ <;>
      · simp only [evalPacket]
        rw [h]
        rfl

/-- C3 witness: two literal children with values 4 and 7. -/
theorem claim_c3_w :
    evalList [sampleLit 4, sampleLit 7] = some [4, 7] ∧
    (evalPacket (.mk 0 .literal (some 9) [sampleLit 4, sampleLit 7] 0) = some 9 ∧
     evalPacket (.mk 0 .sum none [sampleLit 4, sampleLit 7] 0) = some ([4, 7] : List Nat).sum ∧
     evalPacket (.mk 0 .product none [sampleLit 4, sampleLit 7] 0) = some ([4, 7] : List Nat).prod ∧
     (∀ (a : Nat) (tail : List Nat), ([4, 7] : List Nat) = a :: tail →
       evalPacket (.mk 0 .minimum none [sampleLit 4, sampleLit 7] 0) = some (tail.foldl min a) ∧
       tail.foldl min a ∈ ([4, 7] : List Nat) ∧ ∀ y ∈ ([4, 7] : List Nat), tail.foldl min a ≤ y) ∧
     (∀ (a : Nat) (tail : List Nat), ([4, 7] : List Nat) = a :: tail →
       evalPacket (.mk 0 .maximum none [sampleLit 4, sampleLit 7] 0) = some (tail.foldl max a) ∧
       tail.foldl max a ∈ ([4, 7] : List Nat) ∧ ∀ y ∈ ([4, 7] : List Nat), y ≤ tail.foldl max a) ∧
     (∀ a b : Nat, ([4, 7] : List Nat) = [a, b] →
       ([sampleLit 4, sampleLit 7] : List Packet).length = 2 ∧
       evalPacket (.mk 0 .gt none [sampleLit 4, sampleLit 7] 0) = some (if a > b then 1 else 0) ∧
       evalPacket (.mk 0 .lt none [sampleLit 4, sampleLit 7] 0) = some (if a < b then 1 else 0) ∧
       evalPacket (.mk 0 .eq none [sampleLit 4, sampleLit 7] 0) = some (if a = b then 1 else 0))) :=
  ⟨rfl, claim_c3 0 0 none 9 [sampleLit 4, sampleLit 7] [4, 7] rfl⟩

/-- C6 counterexample: a GreaterThan packet with three literal children,
each of which evaluates fine, fails to evaluate — the two-argument
comparison call raises on extra operands instead of ignoring them (the
claim would predict `some 1` since 5 > 3). -/
theorem claim_c6_cex :
    evalList [sampleLit 5, sampleLit 3, sampleLit 7] = some [5, 3, 7] ∧
    evalPacket (.mk 0 .gt none [sampleLit 5, sampleLit 3, sampleLit 7] 0) = none ∧
    evalPacket (.mk 0 .gt none [sampleLit 5, sampleLit 3, sampleLit 7] 0) ≠ some 1 :=
  ⟨rfl, rfl, by decide⟩

/-- C6 amended: a comparison packet (GreaterThan, LessThan, EqualTo) whose
child count differs from two fails to evaluate, whether there are fewer
than two operands or more. -/
theorem claim_c6 (ver len : Nat) (val : Option Nat) (subs : List Packet) (vs : List Nat)
    (h : evalList subs = some vs) (hlen : subs.length ≠ 2) :
    evalPacket (.mk ver .gt val subs len) = none ∧
    evalPacket (.mk ver .lt val subs len) = none ∧
    evalPacket (.mk ver .eq val subs len) = none := by
  have hv : vs.length ≠ 2 := by rw [evalList_length h]; exact hlen
  obtain ⟨hg, hl, he⟩ := applyOp_cmp_none vs hv
  refine ⟨?_, ?_, ?_⟩ <;> simp only [evalPacket] <;> rw [h]
  · exact hg
  · exact hl
  · exact he

/-- C6 amended, witness: a single-operand comparison fails. -/
theorem claim_c6_w :
    evalList [sampleLit 1] = some [1] ∧ ([sampleLit 1] : List Packet).length ≠ 2 ∧
    (evalPacket (.mk 0 .gt none [sampleLit 1] 0) = none ∧
     evalPacket (.mk 0 .lt none [sampleLit 1] 0) = none ∧
     evalPacket (.mk 0 .eq none [sampleLit 1] 0) = none) :=
  ⟨rfl, by decide, claim_c6 0 0 none [sampleLit 1] [1] rfl (by decide)⟩



/-- C5 counterexample: a 0-bit integer read does not return the (empty)
bits' value — `int("", 2)` raises `ValueError`, even though zero bits
always "remain" in the stream. -/
theorem claim_c5_cex :
    readInt 0 [] = .error .valueError ∧
    readInt 0 [] ≠ .ok (binToNat (([] : List Bool).take 0), ([] : List Bool).drop 0) :=
  ⟨rfl, by intro hc; exact Except.noConfusion hc⟩

/-- C5 amended: for every read of `n ≥ 1` bits (the parser only ever issues
reads of 1, 3, 4, 11 or 15 bits), a read beyond the end of the stream fails
with the end-of-stream error, a read within the stream returns the next `n`
bits as a big-endian unsigned integer and advances the offset by exactly
`n`, and a stream too short for even the packet header makes the whole
parse fail with the same error. -/
theorem claim_c5 (n : Nat) (s : List Bool) (hn : 1 ≤ n) :
    (s.length < n → readInt n s = .error .unexpectedEndOfStream) ∧
    (n ≤ s.length → readInt n s = .ok (binToNat (s.take n), s.drop n) ∧
      (s.drop n).length = s.length - n) ∧
    (s.length < 6 → parse s = .error .unexpectedEndOfStream) :=
  ⟨fun h => readInt_err h,
   fun h => ⟨readInt_ok n s h (by omega), by simp⟩,
   fun h => parse_short s h⟩

/-- C5 amended, witness at a 3-bit read over a 2-bit stream. -/
theorem claim_c5_w :
    1 ≤ 3 ∧
    ((([true, false] : List Bool).length < 3 →
        readInt 3 [true, false] = .error .unexpectedEndOfStream) ∧
     (3 ≤ ([true, false] : List Bool).length →
        readInt 3 [true, false] =
          .ok (binToNat (([true, false] : List Bool).take 3), ([true, false] : List Bool).drop 3) ∧
        (([true, false] : List Bool).drop 3).length = ([true, false] : List Bool).length - 3) ∧
     (([true, false] : List Bool).length < 6 →
        parse [true, false] = .error .unexpectedEndOfStream)) :=
  ⟨by decide, claim_c5 3 [true, false] (by decide)⟩

/-- C4: parsing a literal body built as continuation-nibble groups consumes
exactly the encoding (leaving the rest of the stream untouched), produces
the concatenated 4-bit groups, and converting those bits back with the
big-endian integer reading reproduces the encoded integer exactly — for
every non-negative integer, with no magnitude bound. -/
theorem claim_c4 (v : Nat) (rest : List Bool) (fuel : Nat)
    (hfuel : (natNibbles v).length ≤ fuel + 1) :
    parseLiteralGroups fuel (encodeLiteral v ++ rest) =
      .ok (nibblesToBits (natNibbles v), 5 * (natNibbles v).length, rest) ∧
    intOfBits (nibblesToBits (natNibbles v)) = .ok v := by
  obtain ⟨hne, hlt, hfold⟩ := natNibbles_spec v
  refine ⟨parseLiteralGroups_encodeGroups (natNibbles v) fuel rest hne hlt hfuel, ?_⟩
  have hb := binToNat_nibblesToBits (natNibbles v) hlt
  have hempty : (nibblesToBits (natNibbles v)).isEmpty = false := by
    cases hnn : nibblesToBits (natNibbles v) with
    | nil => exact absurd hnn (nibblesToBits_ne_nil hne)
    | cons x xs => rfl
  simp [intOfBits, hempty, hb, hfold]

/-- C4 witness at a value needing 71 bits (18 nibble groups). -/
theorem claim_c4_w :
    (natNibbles (2 ^ 70 + 5)).length ≤ 20 + 1 ∧
    (parseLiteralGroups 20 (encodeLiteral (2 ^ 70 + 5) ++ [true]) =
      .ok (nibblesToBits (natNibbles (2 ^ 70 + 5)), 5 * (natNibbles (2 ^ 70 + 5)).length, [true]) ∧
     intOfBits (nibblesToBits (natNibbles (2 ^ 70 + 5))) = .ok (2 ^ 70 + 5)) :=
  ⟨by decide, claim_c4 (2 ^ 70 + 5) [true] 20 (by decide)⟩



/-- C7: an operator packet in sub-count mode declaring a nonzero number of
sub-packets, followed by nothing, fails with the end-of-stream error (the
first child parse finds no version field) — it does not produce a packet
with an empty children list. -/
theorem claim_c7 (t : PacketType) (ver c : Nat)
    (ht : t.is_operator = true) (hver : ver < 8) (hc1 : 1 ≤ c) (hc2 : c < 2048) :
    parse (natToBits 3 ver ++ natToBits 3 t.code ++ [true] ++ natToBits 11 c) =
      .error .unexpectedEndOfStream := by
  have hslen :
      (natToBits 3 ver ++ natToBits 3 t.code ++ [true] ++ natToBits 11 c).length = 18 := by
    simp [natToBits_length]
  unfold parse
  rw [hslen, List.append_assoc, List.append_assoc]
  rw [parseP]
  rw [@readInt_exact 3 (natToBits 3 ver) _ (natToBits_length 3 ver) (by omega)]
  dsimp only
  rw [@readInt_exact 3 (natToBits 3 t.code) _ (natToBits_length 3 t.code) (by omega)]
  dsimp only
  rw [binToNat_natToBits]
  have hcd : t.code % 2 ^ 3 = t.code := Nat.mod_eq_of_lt (by have := code_lt_8 t; omega)
  rw [hcd, fromCode_code]
  dsimp only
  rw [if_neg (ne_literal_of_is_operator ht)]
  rw [show (18 : Nat) = 17 + 1 from rfl]
  rw [parseSubPackets]
  rw [@readInt_exact 1 [true] (natToBits 11 c) rfl (by omega)]
  dsimp only
  rw [if_neg (by decide : ¬ binToNat [true] = 0)]
  rw [readInt_all 11 (natToBits 11 c) (natToBits_length 11 c) (by omega)]
  dsimp only
  rw [binToNat_natToBits]
  have hcc : c % 2 ^ 11 = c := Nat.mod_eq_of_lt (by omega)
  rw [hcc]
  obtain ⟨m, rfl⟩ : ∃ m, c = m + 1 := ⟨c - 1, by omega⟩
  rw [show (17 : Nat) = 16 + 1 from rfl]
  rw [parseCount]
  try dsimp only
  rw [show (16 : Nat) = 15 + 1 from rfl, parseP_nil]

/-- C7 witness: a GreaterThan packet declaring one sub-packet and ending. -/
theorem claim_c7_w :
    PacketType.is_operator .gt = true ∧ 6 < 8 ∧ 1 ≤ 1 ∧ 1 < 2048 ∧
    parse (natToBits 3 6 ++ natToBits 3 (PacketType.code .gt) ++ [true] ++ natToBits 11 1) =
      .error .unexpectedEndOfStream :=
  ⟨rfl, by decide, by decide, by decide, claim_c7 .gt 6 1 rfl (by decide) (by decide) (by decide)⟩

/-- C9: the hex input D2FE28 expands to 24 bits, parses to a single Literal
packet with version 6 and value 2021 (consuming 21 bits, leaving the three
trailing zero pad bits), and its version sum is 6. -/
theorem claim_c9 :
    hexToBin ['D', '2', 'F', 'E', '2', '8'] =
      some [true, true, false, true, false, false, true, false,
            true, true, true, true, true, true, true, false,
            false, false, true, false, true, false, false, false] ∧
    parse [true, true, false, true, false, false, true, false,
           true, true, true, true, true, true, true, false,
           false, false, true, false, true, false, false, false] =
      .ok (.mk 6 .literal (some 2021) [] 21, [false, false, false]) ∧
    versionSum (.mk 6 .literal (some 2021) [] 21) = 6 :=
  ⟨rfl, rfl, rfl⟩

end Day16
